import Mathlib

/-!
Shallow embedding of the `string-intern` crate (src/base_type.rs,
src/validator.rs) and proofs about it.

Modelling conventions:
* Rust `String` content is modelled as a byte sequence `Str := List Nat`
  (Rust's `String` equality, ordering and hashing are all byte-based).
* `Arc<Value>` allocations are modelled as indices into an arena
  (`TableM.entries`); the `strong` field is the Arc's strong count, i.e.
  the number of live `Symbol` handles holding that allocation.  A `Weak`
  reference is an index whose entry may have `strong = 0`; `upgrade`
  succeeds exactly when `strong > 0`.
* The global `ATOMS: RwLock<HashMap<Buf, Weak<Value>>>` is the assoc list
  `TableM.slots` (keys are distinct, as in a `HashMap`).
* Validators `V::validate_symbol : &str -> Result<(), V::Err>` are
  functions `Str → Except ε Unit`.
-/

set_option autoImplicit false

namespace StringIntern

universe u

/-- Byte content of a Rust `String`. -/
abbrev Str := List Nat

/-- `struct Value(Arc<String>);` — the immutable payload of one interned
entry, holding its byte content. -/
structure ValueM where
  buf : Str
deriving DecidableEq

/-- `pub struct Symbol<V>(Arc<Value>, PhantomData<V>);` — for the pure
(comparison / hashing / rendering) layer the handle is its `Value`; the
phantom domain tag `V` keeps symbols of different domains at different
types, as in the source. -/
structure SymbolM (V : Type u) where
  val : ValueM

/-- One arena cell: an `Arc<Value>` allocation with its strong count. -/
structure EntryM where
  content : Str
  strong : Nat
deriving DecidableEq

/-- The intern table: the arena of `Arc<Value>` allocations ever made
(an entry with `strong = 0` is a dead allocation whose destructor is due
or done) together with the `HashMap<Buf, Weak<Value>>` of slots. -/
structure TableM where
  entries : List EntryM
  slots : List (Str × Nat)
deriving DecidableEq

/-- Arena read; out-of-range reads return a dead dummy entry. -/
def entryAt : List EntryM → Nat → EntryM
  | [], _ => ⟨[], 0⟩
  | e :: _, 0 => e
  | _ :: rest, n + 1 => entryAt rest n

/-- Arena write; out-of-range writes are dropped. -/
def setEntry : List EntryM → Nat → EntryM → List EntryM
  | [], _, _ => []
  | _ :: rest, 0, e => e :: rest
  | x :: rest, n + 1, e => x :: setEntry rest n e

def getEntry (σ : TableM) (i : Nat) : EntryM := entryAt σ.entries i

/-- `HashMap::get` on the slots (keys are distinct, so first match). -/
def slotFind : List (Str × Nat) → Str → Option Nat
  | [], _ => none
  | p :: rest, s => if p.1 = s then some p.2 else slotFind rest s

/-- `OccupiedEntry::insert`: replace the weak reference stored under an
existing key, keeping the key. -/
def slotUpdate : List (Str × Nat) → Str → Nat → List (Str × Nat)
  | [], _, _ => []
  | p :: rest, s, j => if p.1 = s then (p.1, j) :: rest else p :: slotUpdate rest s j

/-- `HashMap::remove` by key. -/
def slotRemove : List (Str × Nat) → Str → List (Str × Nat)
  | [], _ => []
  | p :: rest, s => if p.1 = s then rest else p :: slotRemove rest s

/-- `Arc::clone` on the entry returned to the caller: one more strong
owner of allocation `i`. -/
def incStrong (σ : TableM) (i : Nat) : TableM :=
  { σ with entries := setEntry σ.entries i ⟨(getEntry σ i).content, (getEntry σ i).strong + 1⟩ }

/-- The write-locked half of `from_str` (lines 84–100 of base_type.rs):
re-check the map entry for `s`; on a live weak reference reuse it,
otherwise allocate a fresh `Arc<Value>` (index `entries.length`, strong
count 1) and install/overwrite the slot's weak reference. -/
def fromStrWrite (s : Str) (σ : TableM) : Nat × TableM :=
  match slotFind σ.slots s with
  | some i =>
    if 0 < (getEntry σ i).strong then
      (i, incStrong σ i)
    else
      (σ.entries.length,
        ⟨σ.entries ++ [⟨s, 1⟩], slotUpdate σ.slots s σ.entries.length⟩)
  | none =>
    (σ.entries.length,
      ⟨σ.entries ++ [⟨s, 1⟩], σ.slots ++ [(s, σ.entries.length)]⟩)

/-- The post-validation body of `from_str`: read-locked lookup with
`Weak::upgrade`, falling back to the write-locked path on a miss or a
dead weak reference. -/
def resolve (s : Str) (σ : TableM) : Nat × TableM :=
  match slotFind σ.slots s with
  | some i =>
    if 0 < (getEntry σ i).strong then (i, incStrong σ i) else fromStrWrite s σ
  | none => fromStrWrite s σ

/-- `impl FromStr for Symbol<V>`: validate first; on rejection return the
domain's error with the table untouched, otherwise resolve against the
table.  The handle is the index of the `Arc<Value>` allocation it owns. -/
def fromStr {ε : Type u} (v : Str → Except ε Unit) (s : Str) (σ : TableM) :
    Except ε Nat × TableM :=
  match v s with
  | .error e => (.error e, σ)
  | .ok _ =>
    let r := resolve s σ
    (.ok r.1, r.2)

/-- Strong-count decrement when a `Symbol`'s `Arc<Value>` is dropped
(the destructor of the `Value` has not yet run). -/
def dropDecrement (σ : TableM) (i : Nat) : TableM :=
  { σ with entries := setEntry σ.entries i ⟨(getEntry σ i).content, (getEntry σ i).strong - 1⟩ }

/-- `impl Drop for Value` as written in the source (lines 105–110):
`atoms.remove(&self.0[..])` — the slot for this content is removed
unconditionally, whether or not it still points to this allocation. -/
def valueDropCode (σ : TableM) (i : Nat) : TableM :=
  { σ with slots := slotRemove σ.slots (getEntry σ i).content }

/-- Modelled from the spec: the teardown step the spec mandates —
"removes its own content's slot if that slot still points to this Entry
(it must not remove a slot that was since overwritten by a newer
Entry)".  Used only to compare against `valueDropCode`. -/
def valueDropSpec (σ : TableM) (i : Nat) : TableM :=
  if slotFind σ.slots (getEntry σ i).content = some i then
    { σ with slots := slotRemove σ.slots (getEntry σ i).content }
  else σ

/-- Dropping one owning handle of allocation `i` with no interleaving:
decrement, and when the last strong owner is gone run the `Drop` code. -/
def dropSymbol (σ : TableM) (i : Nat) : TableM :=
  let σd := dropDecrement σ i
  if (getEntry σd i).strong = 0 then valueDropCode σd i else σd

/-- `Symbol::<V>::from(&'static str)`: delegates to `from_str` and
panics (`expect`) on a validation error; `none` models the panic. -/
def symbolFrom {ε : Type u} (v : Str → Except ε Unit) (s : Str) (σ : TableM) :
    Option (Nat × TableM) :=
  match fromStr v s σ with
  | (.ok i, σ1) => some (i, σ1)
  | (.error _, _) => none

/-- View an owned handle (arena index) as the pure `SymbolM`: the
`Arc<Value>` it holds carries the entry's content. -/
def symbolOfHandle (V : Type u) (σ : TableM) (i : Nat) : SymbolM V :=
  ⟨⟨(getEntry σ i).content⟩⟩

/-- Table well-formedness: slot keys are distinct (as in a `HashMap`)
and every slot's weak reference points into the arena, at an entry whose
content equals the slot's key. -/
def wf (σ : TableM) : Prop :=
  (σ.slots.map Prod.fst).Nodup ∧
    ∀ p ∈ σ.slots, p.2 < σ.entries.length ∧ (getEntry σ p.2).content = p.1

/-- The empty table (fresh `lazy_static` state). -/
def emptyTable : TableM := ⟨[], []⟩

/-! ### The pure layer: equality, ordering, hashing, rendering

`Symbol`'s comparison traits all forward to the `Arc<Value>` field, which
dereferences to the derived impls on `Value`, which compare the single
`Arc<String>` field, i.e. the byte content. -/

/-- Derived `PartialEq` on `Value`: equality of the `Arc<String>` field's
content. -/
def valueBEq (a b : ValueM) : Bool := a.buf = b.buf

/-- `impl PartialEq for Symbol`: `self.0.eq(&other.0)`. -/
def symbolBEq {V : Type u} (a b : SymbolM V) : Bool := valueBEq a.val b.val

/-- `u8`'s total order. -/
def byteCompare (a b : Nat) : Ordering :=
  if a < b then .lt else if b < a then .gt else .eq

/-- Lexicographic comparison of byte slices, as `Ord` on Rust's
`str`/`String` (`self.as_bytes().cmp(other.as_bytes())`). -/
def bytesCompare : Str → Str → Ordering
  | [], [] => .eq
  | [], _ :: _ => .lt
  | _ :: _, [] => .gt
  | a :: as_, b :: bs =>
    match byteCompare a b with
    | .eq => bytesCompare as_ bs
    | .lt => .lt
    | .gt => .gt

/-- Derived `Ord` on `Value`: compares the `Arc<String>` field. -/
def valueCompare (a b : ValueM) : Ordering := bytesCompare a.buf b.buf

/-- `impl Ord for Symbol`: `self.0.cmp(&other.0)`. -/
def symbolCmp {V : Type u} (a b : SymbolM V) : Ordering := valueCompare a.val b.val

/-- `impl PartialOrd for Symbol`: `self.0.partial_cmp(&other.0)`, which
for `String`-backed data is `Some` of the total comparison. -/
def symbolPartialCmp {V : Type u} (a b : SymbolM V) : Option Ordering :=
  some (symbolCmp a b)

/-- A `Hasher` observed as the stream of bytes written into it. -/
abbrev HasherM := List Nat

/-- `Hash` for `str`/`String`: writes the content bytes followed by the
`0xff` terminator byte. -/
def hashStr (s : Str) (h : HasherM) : HasherM := h ++ s ++ [255]

/-- Derived `Hash` on `Value`: hashes its single `Arc<String>` field. -/
def hashValue (v : ValueM) (h : HasherM) : HasherM := hashStr v.buf h

/-- `impl Hash for Symbol`: `self.0.hash(hasher)`. -/
def hashSymbol {V : Type u} (x : SymbolM V) (h : HasherM) : HasherM :=
  hashValue x.val h

/-- `impl Deref for Symbol`: `&(self.0).0`. -/
def derefSym {V : Type u} (x : SymbolM V) : Str := x.val.buf

/-- `impl AsRef<str> for Symbol`: `&(self.0).0[..]`. -/
def asRefSym {V : Type u} (x : SymbolM V) : Str := x.val.buf

/-- `impl Borrow<str> for Symbol`: `&(self.0).0[..]`. -/
def borrowStrSym {V : Type u} (x : SymbolM V) : Str := x.val.buf

/-- `impl Display for Symbol`: formats `(self.0).0`, i.e. emits the raw
content. -/
def displaySym {V : Type u} (x : SymbolM V) : Str := x.val.buf

/-- `Display` of the handle returned by `from_str`, read off the table;
this is also what the serde/rustc-serialize serializers emit
(`serialize_str(&(self.0).0)`). -/
def renderDisplay (σ : TableM) (i : Nat) : Str := (getEntry σ i).content

/-- Serde deserialization (`SymbolVisitor::visit_str`): `v.parse()` —
delegates to the same validating `from_str` path. -/
def deserializeSymbol {ε : Type u} (v : Str → Except ε Unit) (s : Str) (σ : TableM) :
    Except ε Nat × TableM :=
  fromStr v s σ

/-- Lower-case hex digit of a nibble, as ASCII byte. -/
def hexDigit (n : Nat) : Nat := if n < 10 then 48 + n else 87 + n

/-- Minimal lower-case hex byte sequence of a byte value. -/
def hexBytes (c : Nat) : Str :=
  if c < 16 then [hexDigit c] else [hexDigit (c / 16), hexDigit (c % 16)]

/-- `char::escape_debug` as used by `str`'s `Debug` impl, on a content
byte: `"` and `\` get a backslash escape, `\n`, `\r`, `\t` their named
escapes, other control bytes a unicode escape, everything else passes
through. -/
def escapeByte (c : Nat) : Str :=
  if c = 34 then [92, 34]
  else if c = 92 then [92, 92]
  else if c = 10 then [92, 110]
  else if c = 13 then [92, 114]
  else if c = 9 then [92, 116]
  else if c < 32 then [92, 117, 123] ++ hexBytes c ++ [125]
  else [c]

/-- Rust's `{:?}` rendering of a `str`: the escaped content surrounded by
double quotes. -/
def rustDebugStr (s : Str) : Str := [34] ++ (s.map escapeByte).flatten ++ [34]

/-- The default `Validator::display` from src/validator.rs:
`write!(fmt, "i{:?}", value.as_ref())` — the byte `i` (105) followed by
the quoted content.  `Debug for Symbol` delegates here. -/
def defaultValidatorDisplay {V : Type u} (x : SymbolM V) : Str :=
  [105] ++ rustDebugStr (asRefSym x)

/-- The rendering claimed for the default display capability: the quoted
raw content and nothing more (written from the spec's words, for
comparison with `defaultValidatorDisplay`). -/
def claimedDefaultDisplay {V : Type u} (x : SymbolM V) : Str :=
  rustDebugStr (asRefSym x)

/-! ### Witness validators (from the test module of base_type.rs) -/

/-- `AnyString::validate_symbol`: accepts everything. -/
def validateAny : Str → Except String Unit := fun _ => .ok ()

/-- ASCII alphanumeric test, as the bytes accepted by
`char::is_alphanumeric` in the ASCII range. -/
def isAlphaNumByte (c : Nat) : Bool :=
  (48 ≤ c && c ≤ 57) || (65 ≤ c && c ≤ 90) || (97 ≤ c && c ≤ 122)

/-- `AlphaNumString::validate_symbol`: rejects content with any
non-alphanumeric byte, with the test's error message. -/
def validateAlphaNum (s : Str) : Except String Unit :=
  if s.all isAlphaNumByte then .ok ()
  else .error "Character is not alphanumeric"

/-- The bytes of `"x"`. -/
def xStr : Str := [120]

/-- The bytes of `"a-b"` (the cross-domain test content). -/
def abStr : Str := [97, 45, 98]

/-- A table holding `"a-b"` interned (by the permissive domain) with one
live handle. -/
def tableAB : TableM := ⟨[⟨abStr, 1⟩], [(abStr, 0)]⟩

/-- A table holding `"x"` interned with one live handle. -/
def tableX : TableM := ⟨[⟨xStr, 1⟩], [(xStr, 0)]⟩

/-- Resolution postcondition bundle: `σ1` is the table and `i` the handle
produced by resolving `s` against `σ0`. -/
def resolved (s : Str) (σ0 σ1 : TableM) (i : Nat) : Prop :=
  wf σ1 ∧ slotFind σ1.slots s = some i ∧ (getEntry σ1 i).content = s ∧
    0 < (getEntry σ1 i).strong ∧ i < σ1.entries.length ∧
    σ0.entries.length ≤ σ1.entries.length

/-- First step of the C2 race: `"x"` interned once (its sole handle is
allocation 0). -/
def raceState1 : TableM := (fromStr validateAny xStr emptyTable).2

/-- Second step: the last strong owner of allocation 0 is dropped, but
its destructor has not yet acquired the table lock. -/
def raceState2 : TableM := dropDecrement raceState1 0

/-- Third step: a concurrent `from_str "x"` wins the write lock first,
sees the dead weak reference, allocates entry 1 and overwrites the
slot. -/
def raceState3 : TableM := (fromStr validateAny xStr raceState2).2

/-- Modelled from the spec (lexical-order comparison target): strict
dictionary order on byte contents, written from the spec's words
"ordering ... consistent with lexical ordering of content". -/
def specLexLt : Str → Str → Bool
  | [], [] => false
  | [], _ :: _ => true
  | _ :: _, [] => false
  | a :: as_, b :: bs => if a < b then true else if b < a then false else specLexLt as_ bs

/-! ### List-level lemmas -/

theorem entryAt_ge_length (l : List EntryM) (n : Nat) (h : l.length ≤ n) :
    entryAt l n = ⟨[], 0⟩ := by
  induction l generalizing n with
  | nil => rfl
  | cons x rest ih =>
    cases n with
    | zero => simp at h
    | succ m => exact ih m (Nat.le_of_succ_le_succ h)

theorem lt_length_of_strong_pos (l : List EntryM) (i : Nat)
    (h : 0 < (entryAt l i).strong) : i < l.length := by
  by_contra hc
  push_neg at hc
  rw [entryAt_ge_length l i hc] at h
  simp at h

theorem length_setEntry (l : List EntryM) (n : Nat) (e : EntryM) :
    (setEntry l n e).length = l.length := by
  induction l generalizing n with
  | nil => rfl
  | cons x rest ih =>
    cases n with
    | zero => rfl
    | succ m => simpa [setEntry] using ih m

theorem entryAt_setEntry_self (l : List EntryM) (n : Nat) (e : EntryM)
    (h : n < l.length) : entryAt (setEntry l n e) n = e := by
  induction l generalizing n with
  | nil => simp at h
  | cons x rest ih =>
    cases n with
    | zero => rfl
    | succ m => simpa [setEntry, entryAt] using ih m (Nat.lt_of_succ_lt_succ h)

theorem entryAt_setEntry_other (l : List EntryM) (n m : Nat) (e : EntryM)
    (h : m ≠ n) : entryAt (setEntry l n e) m = entryAt l m := by
  induction l generalizing n m with
  | nil => rfl
  | cons x rest ih =>
    cases n with
    | zero =>
      cases m with
      | zero => exact absurd rfl h
      | succ k => rfl
    | succ nk =>
      cases m with
      | zero => rfl
      | succ mk =>
        simpa [setEntry, entryAt] using ih nk mk (fun hh => h (by omega))

theorem entryAt_append_lt (l l2 : List EntryM) (n : Nat) (h : n < l.length) :
    entryAt (l ++ l2) n = entryAt l n := by
  induction l generalizing n with
  | nil => simp at h
  | cons x rest ih =>
    cases n with
    | zero => rfl
    | succ m => simpa [entryAt] using ih m (Nat.lt_of_succ_lt_succ h)

theorem entryAt_append_self (l : List EntryM) (e : EntryM) :
    entryAt (l ++ [e]) l.length = e := by
  induction l with
  | nil => rfl
  | cons x rest ih => simpa [entryAt] using ih

theorem slotFind_mem (l : List (Str × Nat)) (s : Str) (i : Nat)
    (h : slotFind l s = some i) : (s, i) ∈ l := by
  induction l with
  | nil => simp [slotFind] at h
  | cons p rest ih =>
    obtain ⟨pk, pv⟩ := p
    by_cases hp : pk = s
    · simp [slotFind, hp] at h
      subst hp
      subst h
      exact List.mem_cons_self _ _
    · simp only [slotFind, if_neg (by simpa using hp)] at h
      exact List.mem_cons_of_mem _ (ih h)

theorem slotFind_eq_none (l : List (Str × Nat)) (s : Str) :
    slotFind l s = none ↔ s ∉ l.map Prod.fst := by
  induction l with
  | nil => simp [slotFind]
  | cons p rest ih =>
    by_cases hp : p.1 = s
    · simp [slotFind, hp]
    · have hs : s ≠ p.1 := fun hh => hp hh.symm
      simp [slotFind, hp, ih, hs]

theorem slotFind_append_self (l : List (Str × Nat)) (s : Str) (j : Nat)
    (h : slotFind l s = none) : slotFind (l ++ [(s, j)]) s = some j := by
  induction l with
  | nil => simp [slotFind]
  | cons p rest ih =>
    by_cases hp : p.1 = s
    · simp [slotFind, hp] at h
    · simp only [List.cons_append, slotFind, if_neg hp]
      exact ih (by simpa [slotFind, hp] using h)

theorem slotFind_update_self (l : List (Str × Nat)) (s : Str) (i j : Nat)
    (h : slotFind l s = some i) : slotFind (slotUpdate l s j) s = some j := by
  induction l with
  | nil => simp [slotFind] at h
  | cons p rest ih =>
    by_cases hp : p.1 = s
    · simp [slotUpdate, hp, slotFind]
    · simp only [slotFind, if_neg hp] at h
      simp only [slotUpdate, if_neg hp, slotFind, if_neg hp]
      exact ih h

theorem map_fst_slotUpdate (l : List (Str × Nat)) (s : Str) (j : Nat) :
    (slotUpdate l s j).map Prod.fst = l.map Prod.fst := by
  induction l with
  | nil => rfl
  | cons p rest ih =>
    by_cases hp : p.1 = s <;> simp [slotUpdate, hp, ih]

theorem mem_slotUpdate (l : List (Str × Nat)) (s : Str) (j : Nat)
    (p : Str × Nat) (h : p ∈ slotUpdate l s j) : p ∈ l ∨ p = (s, j) := by
  induction l with
  | nil => simp [slotUpdate] at h
  | cons q rest ih =>
    by_cases hq : q.1 = s
    · rw [slotUpdate, if_pos hq] at h
      rcases List.mem_cons.mp h with h1 | h2
      · right
        rw [h1, hq]
      · left
        exact List.mem_cons_of_mem _ h2
    · rw [slotUpdate, if_neg hq] at h
      rcases List.mem_cons.mp h with h1 | h2
      · left
        simp [h1]
      · rcases ih h2 with h3 | h3
        · left
          exact List.mem_cons_of_mem _ h3
        · right
          exact h3

theorem slotFind_remove_self (l : List (Str × Nat)) (s : Str)
    (hnd : (l.map Prod.fst).Nodup) : slotFind (slotRemove l s) s = none := by
  induction l with
  | nil => rfl
  | cons p rest ih =>
    simp only [List.map_cons, List.nodup_cons] at hnd
    by_cases hp : p.1 = s
    · rw [slotRemove, if_pos hp, slotFind_eq_none]
      rw [← hp]
      exact hnd.1
    · rw [slotRemove, if_neg hp, slotFind, if_neg hp]
      exact ih hnd.2

/-! ### Table-level lemmas -/

theorem slots_incStrong (σ : TableM) (i : Nat) : (incStrong σ i).slots = σ.slots := rfl

theorem length_incStrong (σ : TableM) (i : Nat) :
    (incStrong σ i).entries.length = σ.entries.length :=
  length_setEntry _ _ _

theorem getEntry_incStrong_self (σ : TableM) (i : Nat) (h : i < σ.entries.length) :
    getEntry (incStrong σ i) i = ⟨(getEntry σ i).content, (getEntry σ i).strong + 1⟩ := by
  simp [getEntry, incStrong, entryAt_setEntry_self _ _ _ h]

theorem getEntry_incStrong_other (σ : TableM) (i j : Nat) (h : j ≠ i) :
    getEntry (incStrong σ i) j = getEntry σ j :=
  entryAt_setEntry_other _ _ _ _ h

theorem wf_incStrong (σ : TableM) (i : Nat) (h : wf σ) : wf (incStrong σ i) := by
  obtain ⟨hnd, hok⟩ := h
  refine ⟨hnd, ?_⟩
  intro p hp
  have hold := hok p hp
  refine ⟨by simpa [length_incStrong] using hold.1, ?_⟩
  by_cases hpi : p.2 = i
  · rw [hpi, getEntry_incStrong_self σ i (hpi ▸ hold.1)]
    simpa [hpi] using hold.2
  · rw [getEntry_incStrong_other σ i p.2 hpi]
    exact hold.2

theorem reuse_spec (s : Str) (σ : TableM) (k : Nat) (hwf : wf σ)
    (hsf : slotFind σ.slots s = some k) (_hst : 0 < (getEntry σ k).strong) :
    resolved s σ (incStrong σ k) k := by
  have hmem := slotFind_mem σ.slots s k hsf
  have hspec := hwf.2 _ hmem
  have hk : k < σ.entries.length := hspec.1
  have hc : (getEntry σ k).content = s := hspec.2
  refine ⟨wf_incStrong σ k hwf, ?_, ?_, ?_, ?_, ?_⟩
  · simpa [slots_incStrong] using hsf
  · rw [getEntry_incStrong_self σ k hk]
    exact hc
  · rw [getEntry_incStrong_self σ k hk]
    exact Nat.succ_pos _
  · simpa [length_incStrong] using hk
  · simp [length_incStrong]

theorem install_vacant_spec (s : Str) (σ : TableM) (hwf : wf σ)
    (hsf : slotFind σ.slots s = none) :
    resolved s σ ⟨σ.entries ++ [⟨s, 1⟩], σ.slots ++ [(s, σ.entries.length)]⟩
      σ.entries.length := by
  obtain ⟨hnd, hok⟩ := hwf
  have hnotin : s ∉ σ.slots.map Prod.fst := (slotFind_eq_none _ _).mp hsf
  refine ⟨⟨?_, ?_⟩, ?_, ?_, ?_, ?_, ?_⟩
  · rw [List.map_append]
    refine List.Nodup.append hnd (List.nodup_singleton s) ?_
    intro a ha hb
    rw [show (List.map Prod.fst [(s, σ.entries.length)]) = [s] from rfl,
      List.mem_singleton] at hb
    subst hb
    exact hnotin ha
  · intro p hp
    rcases List.mem_append.mp hp with hin | hnew
    · have hold := hok p hin
      refine ⟨by simpa using Nat.lt_succ_of_lt hold.1, ?_⟩
      show (entryAt (σ.entries ++ [⟨s, 1⟩]) p.2).content = p.1
      rw [entryAt_append_lt _ _ _ hold.1]
      exact hold.2
    · have hpe : p = (s, σ.entries.length) := by simpa using hnew
      subst hpe
      refine ⟨by simp, ?_⟩
      show (entryAt (σ.entries ++ [⟨s, 1⟩]) σ.entries.length).content = s
      rw [entryAt_append_self]
  · exact slotFind_append_self _ _ _ hsf
  · show (entryAt (σ.entries ++ [⟨s, 1⟩]) σ.entries.length).content = s
    rw [entryAt_append_self]
  · show 0 < (entryAt (σ.entries ++ [⟨s, 1⟩]) σ.entries.length).strong
    rw [entryAt_append_self]
    exact Nat.one_pos
  · simp
  · simp

theorem install_occupied_spec (s : Str) (σ : TableM) (k : Nat) (hwf : wf σ)
    (hsf : slotFind σ.slots s = some k) :
    resolved s σ ⟨σ.entries ++ [⟨s, 1⟩], slotUpdate σ.slots s σ.entries.length⟩
      σ.entries.length := by
  obtain ⟨hnd, hok⟩ := hwf
  refine ⟨⟨?_, ?_⟩, ?_, ?_, ?_, ?_, ?_⟩
  · simpa [map_fst_slotUpdate] using hnd
  · intro p hp
    rcases mem_slotUpdate _ _ _ _ hp with hin | hnew
    · have hold := hok p hin
      refine ⟨by simpa using Nat.lt_succ_of_lt hold.1, ?_⟩
      show (entryAt (σ.entries ++ [⟨s, 1⟩]) p.2).content = p.1
      rw [entryAt_append_lt _ _ _ hold.1]
      exact hold.2
    · subst hnew
      refine ⟨by simp, ?_⟩
      show (entryAt (σ.entries ++ [⟨s, 1⟩]) σ.entries.length).content = s
      rw [entryAt_append_self]
  · exact slotFind_update_self _ _ k _ hsf
  · show (entryAt (σ.entries ++ [⟨s, 1⟩]) σ.entries.length).content = s
    rw [entryAt_append_self]
  · show 0 < (entryAt (σ.entries ++ [⟨s, 1⟩]) σ.entries.length).strong
    rw [entryAt_append_self]
    exact Nat.one_pos
  · simp
  · simp

theorem fromStrWrite_spec (s : Str) (σ : TableM) (i : Nat) (σ1 : TableM)
    (hwf : wf σ) (h : fromStrWrite s σ = (i, σ1)) : resolved s σ σ1 i := by
  cases hsf : slotFind σ.slots s with
  | none =>
    simp only [fromStrWrite, hsf] at h
    injection h with h1 h2
    subst h1
    subst h2
    exact install_vacant_spec s σ hwf hsf
  | some k =>
    simp only [fromStrWrite, hsf] at h
    by_cases hst : 0 < (getEntry σ k).strong
    · rw [if_pos hst] at h
      injection h with h1 h2
      subst h1
      subst h2
      exact reuse_spec s σ k hwf hsf hst
    · rw [if_neg hst] at h
      injection h with h1 h2
      subst h1
      subst h2
      exact install_occupied_spec s σ k hwf hsf

theorem resolve_spec (s : Str) (σ : TableM) (i : Nat) (σ1 : TableM)
    (hwf : wf σ) (h : resolve s σ = (i, σ1)) : resolved s σ σ1 i := by
  cases hsf : slotFind σ.slots s with
  | none =>
    simp only [resolve, hsf] at h
    exact fromStrWrite_spec s σ i σ1 hwf h
  | some k =>
    simp only [resolve, hsf] at h
    by_cases hst : 0 < (getEntry σ k).strong
    · rw [if_pos hst] at h
      injection h with h1 h2
      subst h1
      subst h2
      exact reuse_spec s σ k hwf hsf hst
    · rw [if_neg hst] at h
      exact fromStrWrite_spec s σ i σ1 hwf h

/-! ### `from_str` lemmas -/

theorem fromStr_of_error {ε : Type u} (v : Str → Except ε Unit) (s : Str)
    (σ : TableM) (e : ε) (hv : v s = Except.error e) :
    fromStr v s σ = (Except.error e, σ) := by
  simp [fromStr, hv]

theorem fromStr_of_ok {ε : Type u} (v : Str → Except ε Unit) (s : Str)
    (σ : TableM) (hv : v s = Except.ok ()) :
    fromStr v s σ = (Except.ok (resolve s σ).1, (resolve s σ).2) := by
  simp [fromStr, hv]

theorem fromStr_fst_error_iff {ε : Type u} (v : Str → Except ε Unit) (s : Str)
    (σ : TableM) (e : ε) : (fromStr v s σ).1 = Except.error e ↔ v s = Except.error e := by
  cases hv : v s with
  | error e2 => simp [fromStr, hv]
  | ok u =>
    cases u
    simp [fromStr, hv]

theorem fromStr_ok_spec {ε : Type u} (v : Str → Except ε Unit) (s : Str)
    (σ : TableM) (i : Nat) (σ1 : TableM) (hwf : wf σ)
    (h : fromStr v s σ = (Except.ok i, σ1)) : resolved s σ σ1 i := by
  cases hv : v s with
  | error e =>
    rw [fromStr_of_error v s σ e hv] at h
    injection h with h1 h2
    exact absurd h1 (by simp)
  | ok u =>
    cases u
    rw [fromStr_of_ok v s σ hv] at h
    injection h with h1 h2
    injection h1 with h1
    refine resolve_spec s σ i σ1 hwf ?_
    rw [← h1, ← h2]

theorem fromStr_reuse {ε : Type u} (v : Str → Except ε Unit) (s : Str)
    (σ : TableM) (i : Nat) (hv : v s = Except.ok ())
    (hsf : slotFind σ.slots s = some i) (hst : 0 < (getEntry σ i).strong) :
    fromStr v s σ = (Except.ok i, incStrong σ i) := by
  rw [fromStr_of_ok v s σ hv]
  simp only [resolve, hsf, if_pos hst]

/-! ### Drop lemmas -/

theorem dropSymbol_last (σ : TableM) (i : Nat) (c : Str) (hwf : wf σ)
    (hsf : slotFind σ.slots c = some i) (hst : (getEntry σ i).strong = 1) :
    dropSymbol σ i = ⟨setEntry σ.entries i ⟨c, 0⟩, slotRemove σ.slots c⟩ ∧
      slotFind (dropSymbol σ i).slots c = none ∧
      (dropSymbol σ i).entries.length = σ.entries.length ∧
      i < σ.entries.length := by
  have hmem := slotFind_mem σ.slots c i hsf
  have hspec := hwf.2 _ hmem
  have hi : i < σ.entries.length := hspec.1
  have hc : (getEntry σ i).content = c := hspec.2
  have hget : getEntry (dropDecrement σ i) i = ⟨c, 0⟩ := by
    show entryAt (setEntry σ.entries i ⟨(getEntry σ i).content, (getEntry σ i).strong - 1⟩) i = _
    rw [entryAt_setEntry_self _ _ _ hi, hc, hst]
  have hds : dropSymbol σ i = ⟨setEntry σ.entries i ⟨c, 0⟩, slotRemove σ.slots c⟩ := by
    rw [dropSymbol]
    simp only [hget]
    rw [if_pos trivial]
    show ({ dropDecrement σ i with
        slots := slotRemove (dropDecrement σ i).slots (getEntry (dropDecrement σ i) i).content }
      : TableM) = _
    rw [hget]
    show (⟨setEntry σ.entries i ⟨(getEntry σ i).content, (getEntry σ i).strong - 1⟩,
      slotRemove σ.slots c⟩ : TableM) = _
    rw [hc, hst]
  refine ⟨hds, ?_, ?_, hi⟩
  · rw [hds]
    exact slotFind_remove_self σ.slots c hwf.1
  · rw [hds]
    exact length_setEntry _ _ _

/-! ### Ordering lemmas -/

theorem byteCompare_eq_iff (a b : Nat) : byteCompare a b = Ordering.eq ↔ a = b := by
  rcases Nat.lt_trichotomy a b with h | h | h
  · rw [byteCompare, if_pos h]
    constructor
    · intro hh
      exact absurd hh (by simp)
    · intro hh
      omega
  · subst h
    rw [byteCompare, if_neg (Nat.lt_irrefl a), if_neg (Nat.lt_irrefl a)]
    simp
  · rw [byteCompare, if_neg (by omega), if_pos h]
    constructor
    · intro hh
      exact absurd hh (by simp)
    · intro hh
      omega

theorem byteCompare_lt_iff (a b : Nat) : byteCompare a b = Ordering.lt ↔ a < b := by
  rcases Nat.lt_trichotomy a b with h | h | h
  · rw [byteCompare, if_pos h]
    simp [h]
  · subst h
    rw [byteCompare, if_neg (Nat.lt_irrefl a), if_neg (Nat.lt_irrefl a)]
    simp
  · rw [byteCompare, if_neg (by omega), if_pos h]
    constructor
    · intro hh
      exact absurd hh (by simp)
    · intro hh
      omega

theorem byteCompare_gt_iff (a b : Nat) : byteCompare a b = Ordering.gt ↔ b < a := by
  rcases Nat.lt_trichotomy a b with h | h | h
  · rw [byteCompare, if_pos h]
    constructor
    · intro hh
      exact absurd hh (by simp)
    · intro hh
      omega
  · subst h
    rw [byteCompare, if_neg (Nat.lt_irrefl a), if_neg (Nat.lt_irrefl a)]
    simp
  · rw [byteCompare, if_neg (by omega), if_pos h]
    simp [h]

theorem bytesCompare_eq_iff : ∀ x y : Str, bytesCompare x y = Ordering.eq ↔ x = y
  | [], [] => by simp [bytesCompare]
  | [], b :: bs => by simp [bytesCompare]
  | a :: as_, [] => by simp [bytesCompare]
  | a :: as_, b :: bs => by
    rw [bytesCompare]
    cases hab : byteCompare a b with
    | eq =>
      have hab2 := (byteCompare_eq_iff a b).mp hab
      subst hab2
      simp [bytesCompare_eq_iff as_ bs]
    | lt =>
      have hab2 := (byteCompare_lt_iff a b).mp hab
      simp only []
      constructor
      · intro hh
        exact absurd hh (by simp)
      · intro hh
        rw [List.cons.injEq] at hh
        omega
    | gt =>
      have hab2 := (byteCompare_gt_iff a b).mp hab
      simp only []
      constructor
      · intro hh
        exact absurd hh (by simp)
      · intro hh
        rw [List.cons.injEq] at hh
        omega

theorem bytesCompare_lt_iff : ∀ x y : Str, bytesCompare x y = Ordering.lt ↔ specLexLt x y = true
  | [], [] => by simp [bytesCompare, specLexLt]
  | [], b :: bs => by simp [bytesCompare, specLexLt]
  | a :: as_, [] => by simp [bytesCompare, specLexLt]
  | a :: as_, b :: bs => by
    rw [bytesCompare, specLexLt]
    rcases Nat.lt_trichotomy a b with h | h | h
    · rw [(byteCompare_lt_iff a b).mpr h, if_pos h]
      simp
    · subst h
      rw [(byteCompare_eq_iff a a).mpr rfl, if_neg (Nat.lt_irrefl a),
        if_neg (Nat.lt_irrefl a)]
      exact bytesCompare_lt_iff as_ bs
    · rw [(byteCompare_gt_iff a b).mpr h, if_neg (by omega), if_pos h]
      constructor
      · intro hh
        exact absurd hh (by simp)
      · intro hh
        exact absurd hh (by simp)

theorem bytesCompare_gt_iff : ∀ x y : Str, bytesCompare x y = Ordering.gt ↔ specLexLt y x = true
  | [], [] => by simp [bytesCompare, specLexLt]
  | [], b :: bs => by simp [bytesCompare, specLexLt]
  | a :: as_, [] => by simp [bytesCompare, specLexLt]
  | a :: as_, b :: bs => by
    rw [bytesCompare, specLexLt]
    rcases Nat.lt_trichotomy a b with h | h | h
    · rw [(byteCompare_lt_iff a b).mpr h, if_neg (by omega), if_pos h]
      constructor
      · intro hh
        exact absurd hh (by simp)
      · intro hh
        exact absurd hh (by simp)
    · subst h
      rw [(byteCompare_eq_iff a a).mpr rfl, if_neg (Nat.lt_irrefl a),
        if_neg (Nat.lt_irrefl a)]
      exact bytesCompare_gt_iff as_ bs
    · rw [(byteCompare_gt_iff a b).mpr h, if_pos h]
      simp

theorem bytesCompare_lt_trans : ∀ x y z : Str,
    bytesCompare x y = Ordering.lt → bytesCompare y z = Ordering.lt →
    bytesCompare x z = Ordering.lt
  | x, [], z => by
    intro h1 h2
    cases x <;> simp [bytesCompare] at h1
  | x, y :: ys, [] => by
    intro h1 h2
    simp [bytesCompare] at h2
  | [], y :: ys, z :: zs => by
    intro h1 h2
    simp [bytesCompare]
  | x :: xs, y :: ys, z :: zs => by
    intro h1 h2
    rw [bytesCompare] at h1 h2 ⊢
    cases hxy : byteCompare x y with
    | gt =>
      rw [hxy] at h1
      exact absurd h1 (by simp)
    | lt =>
      have hlt : x < y := (byteCompare_lt_iff x y).mp hxy
      cases hyz : byteCompare y z with
      | gt =>
        rw [hyz] at h2
        exact absurd h2 (by simp)
      | lt =>
        have hlt2 : y < z := (byteCompare_lt_iff y z).mp hyz
        rw [(byteCompare_lt_iff x z).mpr (Nat.lt_trans hlt hlt2)]
      | eq =>
        have heq : y = z := (byteCompare_eq_iff y z).mp hyz
        rw [(byteCompare_lt_iff x z).mpr (heq ▸ hlt)]
    | eq =>
      have heq : x = y := (byteCompare_eq_iff x y).mp hxy
      rw [hxy] at h1
      cases hyz : byteCompare y z with
      | gt =>
        rw [hyz] at h2
        exact absurd h2 (by simp)
      | lt =>
        have hlt2 : y < z := (byteCompare_lt_iff y z).mp hyz
        rw [(byteCompare_lt_iff x z).mpr (heq ▸ hlt2)]
      | eq =>
        have heq2 : y = z := (byteCompare_eq_iff y z).mp hyz
        rw [hyz] at h2
        rw [(byteCompare_eq_iff x z).mpr (heq.trans heq2)]
        exact bytesCompare_lt_trans xs ys zs h1 h2

/-! ### Witness-state well-formedness -/

theorem wf_emptyTable : wf emptyTable := by
  constructor
  · simp [emptyTable]
  · intro p hp
    simp [emptyTable] at hp

theorem wf_tableX : wf tableX := by
  refine ⟨?_, ?_⟩ <;> decide

theorem wf_tableAB : wf tableAB := by
  refine ⟨?_, ?_⟩ <;> decide

/-! ### Claim theorems -/

/-- Claim C1: for every input `s` and domain validator `v`, `from_str`
returns an error iff the validator rejects `s` — for every table state,
in particular when `s` is already interned by another domain — the error
returned is exactly the validator's own error value, and a failed parse
leaves the table unchanged; an accepted input always parses. -/
theorem parse_error_iff_validator_rejects {ε : Type u} (v : Str → Except ε Unit)
    (s : Str) (σ : TableM) :
    ((∃ e, (fromStr v s σ).1 = Except.error e) ↔ (∃ e, v s = Except.error e)) ∧
    (∀ e, v s = Except.error e → fromStr v s σ = (Except.error e, σ)) ∧
    (v s = Except.ok () → (fromStr v s σ).1 = Except.ok (resolve s σ).1) := by
  refine ⟨⟨?_, ?_⟩, ?_, ?_⟩
  · rintro ⟨e, he⟩
    exact ⟨e, (fromStr_fst_error_iff v s σ e).mp he⟩
  · rintro ⟨e, he⟩
    exact ⟨e, (fromStr_fst_error_iff v s σ e).mpr he⟩
  · intro e he
    exact fromStr_of_error v s σ e he
  · intro hv
    rw [fromStr_of_ok v s σ hv]

/-- Witness for C1: the alphanumeric domain rejects `"a-b"` even though
`"a-b"` is already interned (by the permissive domain) in `tableAB`, the
error is the validator's own, and the table is unchanged. -/
theorem parse_error_iff_validator_rejects_witness :
    fromStr validateAlphaNum abStr tableAB =
      (Except.error "Character is not alphanumeric", tableAB) :=
  (parse_error_iff_validator_rejects validateAlphaNum abStr tableAB).2.1 _ rfl

/-- Claim C2: at the end of the race trace (`raceState3`) the slot for
`"x"` points to the live newer allocation 1 while allocation 0 is dead
with its destructor still pending; running the source's `Drop` code for
allocation 0 nevertheless removes the slot (orphaning the live entry 1),
whereas the conditional removal the claim describes would leave the
table unchanged. -/
theorem drop_removes_overwritten_slot :
    slotFind raceState3.slots xStr = some 1 ∧
    (getEntry raceState3 1).strong = 1 ∧
    (getEntry raceState3 0).strong = 0 ∧
    valueDropCode raceState3 0 = ⟨raceState3.entries, []⟩ ∧
    slotFind (valueDropCode raceState3 0).slots xStr = none ∧
    valueDropSpec raceState3 0 = raceState3 := by
  decide

/-- Claim C3: parsing accepted content a second time while a handle from
the first parse is alive returns the same allocation (`i`) with its
strong count incremented, allocates nothing new, and the two handles are
equal. -/
theorem parse_twice_shares_entry {ε : Type u} (v : Str → Except ε Unit)
    (s : Str) (σ : TableM) (i : Nat) (σ1 : TableM)
    (hwf : wf σ) (hv : v s = Except.ok ())
    (h1 : fromStr v s σ = (Except.ok i, σ1)) :
    fromStr v s σ1 = (Except.ok i, incStrong σ1 i) ∧
    (incStrong σ1 i).entries.length = σ1.entries.length ∧
    symbolBEq (symbolOfHandle Unit (incStrong σ1 i) i) (symbolOfHandle Unit σ1 i) = true := by
  obtain ⟨hwf1, hsf1, hc1, hst1, hi1, _⟩ := fromStr_ok_spec v s σ i σ1 hwf h1
  refine ⟨fromStr_reuse v s σ1 i hv hsf1 hst1, length_incStrong σ1 i, ?_⟩
  simp [symbolBEq, valueBEq, symbolOfHandle, getEntry_incStrong_self σ1 i hi1]

/-- Witness for C3: `"x"` parsed into the empty table and then parsed
again reuses allocation 0. -/
theorem parse_twice_shares_entry_witness :
    fromStr validateAny xStr tableX = (Except.ok 0, incStrong tableX 0) ∧
    (incStrong tableX 0).entries.length = tableX.entries.length ∧
    symbolBEq (symbolOfHandle Unit (incStrong tableX 0) 0)
      (symbolOfHandle Unit tableX 0) = true :=
  parse_twice_shares_entry validateAny xStr emptyTable 0 tableX wf_emptyTable rfl rfl

/-- Claim C4: dropping the last owning handle of content `c` (strong
count 1, across all domains — the table does not distinguish domains)
removes `c`'s slot, and a subsequent parse of `c` allocates a fresh
entry (the new arena index `entries.length`, strictly beyond `i`, with a
fresh strong count of 1) rather than reusing the old allocation. -/
theorem drop_last_handle_removes_slot {ε : Type u} (v : Str → Except ε Unit)
    (c : Str) (σ : TableM) (i : Nat)
    (hwf : wf σ) (hsf : slotFind σ.slots c = some i)
    (hst : (getEntry σ i).strong = 1) (hv : v c = Except.ok ()) :
    slotFind (dropSymbol σ i).slots c = none ∧
    fromStr v c (dropSymbol σ i) =
      (Except.ok (dropSymbol σ i).entries.length,
        ⟨(dropSymbol σ i).entries ++ [⟨c, 1⟩],
          (dropSymbol σ i).slots ++ [(c, (dropSymbol σ i).entries.length)]⟩) ∧
    i < (dropSymbol σ i).entries.length := by
  obtain ⟨hds, hnone, hlen, hi⟩ := dropSymbol_last σ i c hwf hsf hst
  refine ⟨hnone, ?_, ?_⟩
  · rw [fromStr_of_ok v c _ hv]
    simp only [resolve, fromStrWrite, hnone]
  · rw [hlen]
    exact hi

/-- Witness for C4: dropping the only handle of `"x"` empties the slot,
and re-parsing allocates fresh index 1. -/
theorem drop_last_handle_removes_slot_witness :
    slotFind (dropSymbol tableX 0).slots xStr = none ∧
    fromStr validateAny xStr (dropSymbol tableX 0) =
      (Except.ok (dropSymbol tableX 0).entries.length,
        ⟨(dropSymbol tableX 0).entries ++ [⟨xStr, 1⟩],
          (dropSymbol tableX 0).slots ++ [(xStr, (dropSymbol tableX 0).entries.length)]⟩) ∧
    0 < (dropSymbol tableX 0).entries.length :=
  drop_last_handle_removes_slot validateAny xStr tableX 0 wf_tableX rfl rfl rfl

/-- Claim C5: for handles of one domain, equality is content equality,
equal handles hash alike, and the comparison is total (trichotomous via
the three iffs, and transitive) and coincides with lexical order of the
contents; `partial_cmp` is `Some` of the total comparison. -/
theorem handle_eq_hash_ord_by_content {V : Type u} (a b c : SymbolM V) :
    (symbolBEq a b = true ↔ a.val.buf = b.val.buf) ∧
    (symbolBEq a b = true → ∀ h : HasherM, hashSymbol a h = hashSymbol b h) ∧
    (symbolCmp a b = Ordering.eq ↔ a.val.buf = b.val.buf) ∧
    (symbolCmp a b = Ordering.lt ↔ specLexLt a.val.buf b.val.buf = true) ∧
    (symbolCmp a b = Ordering.gt ↔ specLexLt b.val.buf a.val.buf = true) ∧
    (symbolCmp a b = Ordering.lt → symbolCmp b c = Ordering.lt →
      symbolCmp a c = Ordering.lt) ∧
    symbolPartialCmp a b = some (symbolCmp a b) := by
  refine ⟨?_, ?_, ?_, ?_, ?_, ?_, rfl⟩
  · simp [symbolBEq, valueBEq]
  · intro hab h
    have hbuf : a.val.buf = b.val.buf := by simpa [symbolBEq, valueBEq] using hab
    simp [hashSymbol, hashValue, hashStr, hbuf]
  · exact bytesCompare_eq_iff a.val.buf b.val.buf
  · exact bytesCompare_lt_iff a.val.buf b.val.buf
  · exact bytesCompare_gt_iff a.val.buf b.val.buf
  · exact bytesCompare_lt_trans a.val.buf b.val.buf c.val.buf

/-- Witness for C5: `parse("a") < parse("b")` at the content level, and
equal handles hash alike. -/
theorem handle_eq_hash_ord_by_content_witness :
    symbolCmp (⟨⟨[97]⟩⟩ : SymbolM Unit) (⟨⟨[98]⟩⟩ : SymbolM Unit) = Ordering.lt ∧
    hashSymbol (⟨⟨[97]⟩⟩ : SymbolM Unit) [] = hashSymbol (⟨⟨[97]⟩⟩ : SymbolM Unit) [] :=
  ⟨(handle_eq_hash_ord_by_content (⟨⟨[97]⟩⟩ : SymbolM Unit) (⟨⟨[98]⟩⟩ : SymbolM Unit)
      (⟨⟨[98]⟩⟩ : SymbolM Unit)).2.2.2.1.mpr (by decide),
    (handle_eq_hash_ord_by_content (⟨⟨[97]⟩⟩ : SymbolM Unit) (⟨⟨[97]⟩⟩ : SymbolM Unit)
      (⟨⟨[97]⟩⟩ : SymbolM Unit)).2.1 (by decide) []⟩

/-- Claim C6: the `Display` rendering of a freshly parsed handle is the
original content (this is also what serialization emits); parsing the
rendering again under the same domain succeeds and yields an equal
handle (the same allocation); deserialization delegates to the same
validating parse, so it fails exactly when the validator rejects. -/
theorem display_roundtrip_and_deserialize {ε : Type u} (v : Str → Except ε Unit)
    (s : Str) (σ : TableM) (i : Nat) (σ1 : TableM)
    (hwf : wf σ) (hv : v s = Except.ok ())
    (h1 : fromStr v s σ = (Except.ok i, σ1)) :
    renderDisplay σ1 i = s ∧
    fromStr v (renderDisplay σ1 i) σ1 = (Except.ok i, incStrong σ1 i) ∧
    symbolBEq (symbolOfHandle Unit (incStrong σ1 i) i) (symbolOfHandle Unit σ1 i) = true ∧
    (∀ (t : Str) (τ : TableM) (e : ε),
      (deserializeSymbol v t τ).1 = Except.error e ↔ v t = Except.error e) := by
  obtain ⟨hwf1, hsf1, hc1, hst1, hi1, _⟩ := fromStr_ok_spec v s σ i σ1 hwf h1
  refine ⟨hc1, ?_, ?_, ?_⟩
  · rw [show renderDisplay σ1 i = s from hc1]
    exact fromStr_reuse v s σ1 i hv hsf1 hst1
  · simp [symbolBEq, valueBEq, symbolOfHandle, getEntry_incStrong_self σ1 i hi1]
  · intro t τ e
    exact fromStr_fst_error_iff v t τ e

/-- Witness for C6: rendering the handle for `"x"` gives back `"x"`, and
re-parsing the rendering reuses allocation 0. -/
theorem display_roundtrip_and_deserialize_witness :
    renderDisplay tableX 0 = xStr ∧
    fromStr validateAny xStr tableX = (Except.ok 0, incStrong tableX 0) :=
  ⟨(display_roundtrip_and_deserialize validateAny xStr emptyTable 0 tableX
      wf_emptyTable rfl rfl).1,
    (display_roundtrip_and_deserialize validateAny xStr emptyTable 0 tableX
      wf_emptyTable rfl rfl).2.1⟩

/-- Claim C7: `Symbol::from` halts (models as `none`) iff the validator
rejects the literal; when the validator accepts, it returns exactly the
handle and table that `from_str` returns. -/
theorem from_literal_panics_iff_invalid {ε : Type u} (v : Str → Except ε Unit)
    (s : Str) (σ : TableM) :
    (symbolFrom v s σ = none ↔ (∃ e, v s = Except.error e)) ∧
    (v s = Except.ok () →
      symbolFrom v s σ = some ((resolve s σ).1, (resolve s σ).2) ∧
      fromStr v s σ = (Except.ok (resolve s σ).1, (resolve s σ).2)) := by
  constructor
  · constructor
    · intro h
      cases hv : v s with
      | error e => exact ⟨e, rfl⟩
      | ok u =>
        cases u
        simp only [symbolFrom, fromStr_of_ok v s σ hv] at h
        exact absurd h (by simp)
    · rintro ⟨e, he⟩
      simp only [symbolFrom, fromStr_of_error v s σ e he]
  · intro hv
    refine ⟨?_, fromStr_of_ok v s σ hv⟩
    simp only [symbolFrom, fromStr_of_ok v s σ hv]

/-- Witness for C7: the alphanumeric literal `"a-b"` panics, the valid
literal `"x"` returns the parse result. -/
theorem from_literal_panics_iff_invalid_witness :
    symbolFrom validateAlphaNum abStr tableAB = none ∧
    symbolFrom validateAny xStr emptyTable = some (0, tableX) :=
  ⟨(from_literal_panics_iff_invalid validateAlphaNum abStr tableAB).1.mpr
      ⟨"Character is not alphanumeric", rfl⟩,
    ((from_literal_panics_iff_invalid validateAny xStr emptyTable).2 rfl).1⟩

/-- Claim C8 counterexample: the default debug rendering of a handle
over content `"x"` is `i"x"` (bytes 105,34,120,34), not the bare quoted
content `"x"` (bytes 34,120,34). -/
theorem default_debug_not_bare_quoted :
    defaultValidatorDisplay (⟨⟨[120]⟩⟩ : SymbolM Unit) ≠
      claimedDefaultDisplay (⟨⟨[120]⟩⟩ : SymbolM Unit) := by
  decide

/-- Claim C8 (amended): for every handle of a domain that does not
override the display capability, the default debug rendering is the
letter `i` followed by the quoted (escaped) raw content. -/
theorem default_debug_is_i_then_quoted {V : Type u} (x : SymbolM V) :
    defaultValidatorDisplay x =
      105 :: 34 :: ((x.val.buf.map escapeByte).flatten ++ [34]) := rfl

/-- Claim C9: when validation succeeds the returned handle's content
access (`Deref`, `AsRef<str>`, `Borrow<str>`) yields exactly the input
string — interning never alters the stored text. -/
theorem content_access_preserves_input {ε : Type u} (V : Type u)
    (v : Str → Except ε Unit) (s : Str) (σ : TableM) (i : Nat) (σ1 : TableM)
    (hwf : wf σ) (h1 : fromStr v s σ = (Except.ok i, σ1)) :
    derefSym (symbolOfHandle V σ1 i) = s ∧
    asRefSym (symbolOfHandle V σ1 i) = s ∧
    borrowStrSym (symbolOfHandle V σ1 i) = s := by
  obtain ⟨_, _, hc1, _, _, _⟩ := fromStr_ok_spec v s σ i σ1 hwf h1
  exact ⟨hc1, hc1, hc1⟩

/-- Witness for C9: the empty string round-trips through interning
unchanged. -/
theorem content_access_preserves_input_witness :
    derefSym (symbolOfHandle Unit ⟨[⟨[], 1⟩], [([], 0)]⟩ 0) = [] ∧
    asRefSym (symbolOfHandle Unit ⟨[⟨[], 1⟩], [([], 0)]⟩ 0) = [] ∧
    borrowStrSym (symbolOfHandle Unit ⟨[⟨[], 1⟩], [([], 0)]⟩ 0) = [] :=
  content_access_preserves_input Unit validateAny [] emptyTable 0
    ⟨[⟨[], 1⟩], [([], 0)]⟩ wf_emptyTable rfl

/-- Claim C10: hashing a handle feeds the hasher exactly what hashing
its content string feeds it, consistently with the `Borrow<str>` view
(which is also the `Deref` view), so map lookup by plain string content
agrees with lookup by handle. -/
theorem hash_is_content_hash {V : Type u} (x : SymbolM V) (h : HasherM) :
    hashSymbol x h = hashStr (borrowStrSym x) h ∧ borrowStrSym x = derefSym x :=
  ⟨rfl, rfl⟩

end StringIntern
